import Mathlib

/-!
PRQL highlighting descriptor (`book/highlight-prql.js`).

A shallow embedding of the grammar descriptor `formatting`, of the three
`registerLanguage` calls and of the three highlighting loops.

Texts are sequences of UTF-16 code units, written as natural numbers, because
that is what a JavaScript regular expression without the `u` flag walks over.
-/

namespace Prql

/-! ## Code units and character classes -/

/-- Code units of a text: a character below `0x10000` is one unit, any other
character is a surrogate pair. -/
def units (s : String) : List Nat :=
  s.toList.flatMap fun c =>
    if c.toNat < 65536 then [c.toNat]
    else [55296 + (c.toNat - 65536) / 1024, 56320 + (c.toNat - 65536) % 1024]

/-- Class `\d`. -/
def isDigit (c : Nat) : Bool := 48 ≤ c && c ≤ 57

/-- Class `\w`: letters, digits and underscore. -/
def isWord (c : Nat) : Bool :=
  (97 ≤ c && c ≤ 122) || (65 ≤ c && c ≤ 90) || isDigit c || c == 95

/-- Class `[^\w]`. -/
def notWord (c : Nat) : Bool := !isWord c

/-- Class `\s`: the white space and line terminator code units of ECMAScript. -/
def isSpace (c : Nat) : Bool :=
  c == 9 || c == 10 || c == 11 || c == 12 || c == 13 || c == 32 || c == 160 ||
  c == 5760 || (8192 ≤ c && c ≤ 8202) || c == 8232 || c == 8233 || c == 8239 ||
  c == 8287 || c == 12288 || c == 65279

/-- Line terminators, which `$` looks for under the `m` flag. -/
def isLineTerminator (c : Nat) : Bool :=
  c == 10 || c == 13 || c == 8232 || c == 8233

/-- Class `[+-]`. -/
def isSign (c : Nat) : Bool := c == 43 || c == 45

/-- Canonical form of a code unit under the `i` flag, for the ASCII range (every
literal of the descriptor is ASCII, and no code unit outside ASCII has an
ASCII canonical form). -/
def canon (c : Nat) : Nat := if 97 ≤ c && c ≤ 122 then c - 32 else c

/-- A literal character of a pattern; the descriptor is `case_insensitive`, so
its patterns are compiled with the `i` flag. -/
def lit (ch : Char) (c : Nat) : Bool := canon c == canon ch.toNat

/-- ASCII lower-casing of a word (`toLowerCase` on a `\w+` lexeme). -/
def lower (w : List Nat) : List Nat :=
  w.map fun c => if 65 ≤ c && c ≤ 90 then c + 32 else c

/-! ## Regular expressions with backtracking priority -/

/-- The pattern constructs the descriptor uses. -/
inductive Re where
  | empty
  | chr (p : Nat → Bool)
  | seq (a b : Re)
  | alt (a b : Re)
  | star (r : Re)
  | plus (r : Re)
  | opt (r : Re)
  | count (n : Nat) (r : Re)
  | eol

/-- Greedy `*`: iterations of `step` in priority order; an iteration that does
not move is rejected, and stopping here is the last choice. -/
def starEnds (step : List Nat → List (List Nat)) : Nat → List Nat → List (List Nat)
  | 0, s => [s]
  | fuel + 1, s =>
    ((step s).filter fun y => y.length != s.length).flatMap (starEnds step fuel) ++ [s]

/-- Exactly `n` iterations of `step`. -/
def countEnds (step : List Nat → List (List Nat)) : Nat → List Nat → List (List Nat)
  | 0, s => [s]
  | n + 1, s => (step s).flatMap (countEnds step n)

/-- All ways a pattern can match at the start of `s`, as the text left after the
match, in the order a backtracking matcher tries them. -/
def Re.ends : Re → List Nat → List (List Nat)
  | .empty, s => [s]
  | .chr p, s =>
    match s with
    | c :: t => if p c then [t] else []
    | [] => []
  | .seq a b, s => (a.ends s).flatMap fun y => b.ends y
  | .alt a b, s => a.ends s ++ b.ends s
  | .star r, s => starEnds (fun y => r.ends y) s.length s
  | .plus r, s => (r.ends s).flatMap fun y => starEnds (fun z => r.ends z) y.length y
  | .opt r, s => ((r.ends s).filter fun y => y.length != s.length) ++ [s]
  | .count n r, s => countEnds (fun y => r.ends y) n s
  | .eol, s =>
    match s with
    | [] => [[]]
    | c :: _ => if isLineTerminator c then [s] else []

/-- Length of the match at offset 0, if the pattern matches there. -/
def Re.matchAt (r : Re) (s : List Nat) : Option Nat :=
  (r.ends s).head?.map fun y => s.length - y.length

/-- Leftmost match: `(index, length)`, as `RegExp.prototype.exec` finds it. -/
def Re.exec (r : Re) : List Nat → Option (Nat × Nat)
  | [] => (r.matchAt []).map fun n => (0, n)
  | c :: t =>
    match r.matchAt (c :: t) with
    | some n => some (0, n)
    | none => (r.exec t).map fun p => (p.1 + 1, p.2)

/-- A pattern given as a string of literal characters, such as `"""`. -/
def Re.str : List Char → Re
  | [] => .empty
  | [c] => .chr (lit c)
  | c :: cs => .seq (.chr (lit c)) (Re.str cs)

/-- A pattern that cannot match without reading a character. -/
def Re.consumes : Re → Bool
  | .empty => false
  | .chr _ => true
  | .seq a b => a.consumes || b.consumes
  | .alt a b => a.consumes && b.consumes
  | .star _ => false
  | .plus r => r.consumes
  | .opt _ => false
  | .count n r => n != 0 && r.consumes
  | .eol => false

/-! ## The descriptor -/

/-- One entry of a rule's `variants`. -/
structure Variant where
  begin : Re
  end_ : Re

/-- A rule object of `contains`; a field the source leaves out is `none`. -/
structure Rule where
  scope : String
  begin : Option Re
  end_ : Option Re
  match_ : Option Re
  relevance : Nat
  variants : List Variant

/-- The `keywords` object. -/
structure Keywords where
  keyword : List String
  literal : String

/-- The object `formatting` returns. -/
structure Language where
  name : String
  case_insensitive : Bool
  keywords : Keywords
  contains : List Rule

/-- What `formatting` uses of its argument `hljs`. -/
structure Hljs where
  COMMENT : Re → Re → Rule

def TRANSFORMS : List String :=
  ["from", "select", "derive", "filter", "take", "sort", "join", "aggregate",
   "group", "window", "concat", "union"]

def BUILTIN_FUNCTIONS : List String := ["switch", "in", "as"]

def KEYWORDS : List String := ["func", "table", "prql"]

/-- Begin pattern of the named-argument rule: `/\w+\s*:/`. -/
def namedArgRe : Re :=
  .seq (.plus (.chr isWord)) (.seq (.star (.chr isSpace)) (.chr (lit ':')))

/-- Named argument, with `end: ""`. -/
def namedArgRule : Rule where
  scope := "params"
  begin := some namedArgRe
  end_ := some (Re.str [])
  match_ := none
  relevance := 10
  variants := []

/-- The group `(\d*|-|\.\d|:)` of the date rule. -/
def dateItem : Re :=
  .alt (.star (.chr isDigit))
    (.alt (.chr (lit '-'))
      (.alt (.seq (.chr (lit '.')) (.chr isDigit))
        (.chr (lit ':'))))

/-- Pattern of the date rule: `/@(\d*|-|\.\d|:)+/`. -/
def dateRe : Re := .seq (.chr (lit '@')) (.plus dateItem)

def dateRule : Rule where
  scope := "string"
  begin := none
  end_ := none
  match_ := some dateRe
  relevance := 10
  variants := []

/-- The double quote, as a pattern character. -/
def dq : Char := Char.ofNat 34

/-- The single quote, as a pattern character. -/
def sq : Char := Char.ofNat 39

/-- The group `(s|f)`. -/
def sOrF : Re := .alt (.chr (lit 's')) (.chr (lit 'f'))

/-- Interpolation string: `(s|f)"""` … `"""` and `(s|f)"` … `"`. -/
def interpolationRule : Rule where
  scope := "attribute"
  begin := none
  end_ := none
  match_ := none
  relevance := 10
  variants :=
    [⟨.seq sOrF (Re.str [dq, dq, dq]), Re.str [dq, dq, dq]⟩,
     ⟨.seq sOrF (Re.str [dq]), Re.str [dq]⟩]

/-- Normal string: five quotes, three quotes, one quote, one single quote. -/
def stringRule : Rule where
  scope := "string"
  begin := none
  end_ := none
  match_ := none
  relevance := 10
  variants :=
    [⟨Re.str [dq, dq, dq, dq, dq], Re.str [dq, dq, dq, dq, dq]⟩,
     ⟨Re.str [dq, dq, dq], Re.str [dq, dq, dq]⟩,
     ⟨Re.str [dq], Re.str [dq]⟩,
     ⟨Re.str [sq], Re.str [sq]⟩]

/-- Pattern of the number rule: `/[+-]?[^\w]((\d+(\.\d+)?)|(\.\d+))/`. -/
def numberRe : Re :=
  .seq (.opt (.chr isSign))
    (.seq (.chr notWord)
      (.alt
        (.seq (.plus (.chr isDigit))
          (.opt (.seq (.chr (lit '.')) (.plus (.chr isDigit)))))
        (.seq (.chr (lit '.')) (.plus (.chr isDigit)))))

def numberRule : Rule where
  scope := "number"
  begin := none
  end_ := none
  match_ := some numberRe
  relevance := 10
  variants := []

/-- Pattern of the range rule: `/\.{2}/`. -/
def rangeRe : Re := .count 2 (.chr (lit '.'))

def rangeRule : Rule where
  scope := "symbol"
  begin := none
  end_ := none
  match_ := some rangeRe
  relevance := 10
  variants := []

/-- The grammar function of the file. -/
def formatting (hljs : Hljs) : Language where
  name := "PRQL"
  case_insensitive := true
  keywords :=
    { keyword := TRANSFORMS ++ BUILTIN_FUNCTIONS ++ KEYWORDS
      literal := "false true null and or not" }
  contains :=
    [hljs.COMMENT (Re.str ['#']) .eol,
     namedArgRule, dateRule, interpolationRule, stringRule, numberRule, rangeRule]

/-! ## The engine, as far as the descriptor uses it -/

/-- Modelled from the spec: the engine's helper `hljs.COMMENT(begin, end)`, a
rule of class comment between the two delimiters (the doc-tag rules the engine
nests inside a comment are left out). -/
def hljs : Hljs where
  COMMENT := fun b e =>
    { scope := "comment", begin := some b, end_ := some e, match_ := none,
      relevance := 0, variants := [] }

/-- A rule ready for matching: one begin pattern, one end pattern. -/
structure Mode where
  scope : String
  begin : Re
  end_ : Re

/-- Modelled from the spec: how the engine reads a rule. Each variant is a rule
of its own with the scope of the rule, in the order written; `match` stands for
`begin`; a rule without an end (also `end: ""`) ends where its begin ends. -/
def Rule.modes (r : Rule) : List Mode :=
  match r.variants with
  | [] =>
    [{ scope := r.scope
       begin := (r.match_.orElse fun _ => r.begin).getD .empty
       end_ := r.end_.getD .empty }]
  | vs => vs.map fun v => { scope := r.scope, begin := v.begin, end_ := v.end_ }

/-- All rules of the descriptor, in listed order. -/
def Language.modes (l : Language) : List Mode := l.contains.flatMap Rule.modes

/-- Modelled from the spec: of the rules that begin at the start of `s`, the one
listed first, with the length of its begin. -/
def firstAt (modes : List Mode) (s : List Nat) : Option (Nat × Mode) :=
  modes.findSome? fun m => (m.begin.matchAt s).map fun n => (n, m)

/-- Modelled from the spec: the next rule to begin in `s`: the leftmost offset
at which a rule begins, ties going to the rule listed first. The result is
`(offset, length of the begin, rule)`. -/
def nextMatch (modes : List Mode) : List Nat → Option (Nat × Nat × Mode)
  | [] => (firstAt modes []).map fun p => (0, p.1, p.2)
  | c :: t =>
    match firstAt modes (c :: t) with
    | some p => some (0, p.1, p.2)
    | none => (nextMatch modes t).map fun q => (q.1 + 1, q.2.1, q.2.2)

/-- A tagged span of the output. -/
structure Span where
  start : Nat
  len : Nat
  scope : String
  deriving DecidableEq, Repr

/-- Splitting at single spaces, as `split(" ")` does. -/
def splitSpace : List Nat → List (List Nat)
  | [] => [[]]
  | c :: t =>
    if c == 32 then [] :: splitSpace t
    else
      match splitSpace t with
      | [] => [[c]]
      | w :: ws => (c :: w) :: ws

/-- Modelled from the spec: the engine's keyword table. Each group is entered
under its name, `keyword` first and `literal` second, lower-cased when the
descriptor is case-insensitive; a later entry of the same word replaces an
earlier one. -/
def Language.keywordTable (l : Language) : List (List Nat × String) :=
  let fold := fun (w : List Nat) => if l.case_insensitive then lower w else w
  (l.keywords.keyword.map fun w => (fold (units w), "keyword")) ++
    ((splitSpace (units l.keywords.literal)).map fun w => (fold w, "literal"))

/-- Modelled from the spec: the class the engine gives a word (a `\w+` lexeme)
of unstyled text. -/
def Language.classify (l : Language) (w : List Nat) : Option String :=
  l.keywordTable.reverse.lookup (if l.case_insensitive then lower w else w)

/-- The span of a finished word, if the word is in the keyword table. -/
def flushWord (l : Language) (start : Nat) (w : List Nat) : List Span :=
  match w with
  | [] => []
  | _ =>
    match l.classify w with
    | some k => [⟨start, w.length, k⟩]
    | none => []

/-- Keyword spans of a stretch of text no rule matched; `acc` is the word being
read, last character first, and `start` is where it began. -/
def keywordSpansAux (l : Language) : Nat → List Nat → List Nat → List Span
  | start, acc, [] => flushWord l start acc.reverse
  | start, acc, c :: t =>
    if isWord c then keywordSpansAux l start (c :: acc) t
    else flushWord l start acc.reverse ++ keywordSpansAux l (start + acc.length + 1) [] t

def keywordSpans (l : Language) (pos : Nat) (s : List Nat) : List Span :=
  keywordSpansAux l pos [] s

/-- Modelled from the spec: the top-level scan. The text before the next rule is
searched for keywords; the rule's span runs from its begin to the end of the
leftmost match of its end pattern after the begin, or to the end of the text;
the scan goes on after the span. -/
def scan (l : Language) : Nat → Nat → List Nat → List Span
  | 0, _, _ => []
  | fuel + 1, pos, s =>
    match nextMatch l.modes s with
    | none => keywordSpans l pos s
    | some (o, n, m) =>
      let body := s.drop (o + n)
      let len :=
        match m.end_.exec body with
        | some (i, k) => n + i + k
        | none => n + body.length
      keywordSpans l pos (s.take o) ++
        ⟨pos + o, len, m.scope⟩ :: scan l fuel (pos + o + len) (s.drop (o + len))

/-- The tagged spans of a fragment. -/
def highlight (l : Language) (s : List Nat) : List Span :=
  scan l (s.length + 1) 0 s

/-- The descriptor the engine receives. -/
def prql : Language := formatting hljs

/-! ## Registration and the highlighting loops -/

/-- Modelled from the spec: `hljs.registerLanguage(name, grammar)` enters the
grammar function under the name, replacing what was registered under it. -/
def registerLanguage (name : String) (grammar : Hljs → Language)
    (registry : String → Option (Hljs → Language)) : String → Option (Hljs → Language) :=
  fun n => if n = name then some grammar else registry n

/-- The three `registerLanguage` calls of the file, in order. -/
def registerAll (registry : String → Option (Hljs → Language)) :
    String → Option (Hljs → Language) :=
  registerLanguage "elm" formatting
    (registerLanguage "prql_no_test" formatting
      (registerLanguage "prql" formatting registry))

/-- What the loops do that can be seen from outside. -/
inductive Event (E : Type) where
  | log (a : E)
  | highlightBlock (a : E)

def Event.isLog {E : Type} : Event E → Bool
  | .log _ => true
  | .highlightBlock _ => false

def Event.isHighlight {E : Type} : Event E → Bool
  | .log _ => false
  | .highlightBlock _ => true

/-- The host: the query operation of the document and the effect of
highlighting one element on the document. -/
structure Host (E D : Type) where
  querySelectorAll : D → String → List E
  highlightBlock : E → D → D

/-- The document, and the calls made so far on the logging sink and on the
engine, oldest first. -/
structure Page (E D : Type) where
  document : D
  events : List (Event E)

/-- Results of the calls, as far as `||` looks at them. -/
inductive JsValue where
  | undefined
  | boolean (b : Bool)

def JsValue.truthy : JsValue → Bool
  | .undefined => false
  | .boolean b => b

/-- Modelled from the spec: `console.log(a)` adds one line to the logging sink
and returns `undefined`. -/
def consoleLog {E D : Type} (a : E) (p : Page E D) : JsValue × Page E D :=
  (.undefined, { p with events := p.events ++ [.log a] })

/-- Modelled from the spec: `hljs.highlightBlock(a)`, one invocation of the
engine on the element. -/
def highlightBlock {E D : Type} (host : Host E D) (a : E) (p : Page E D) :
    JsValue × Page E D :=
  (.undefined,
    { document := host.highlightBlock a p.document
      events := p.events ++ [.highlightBlock a] })

/-- The arrow function `(a) => console.log(a) || hljs.highlightBlock(a)`. -/
def callback {E D : Type} (host : Host E D) (a : E) (p : Page E D) : JsValue × Page E D :=
  let r := consoleLog a p
  if r.1.truthy then r else highlightBlock host a r.2

/-- `Array.from(document.querySelectorAll(selector)).forEach(callback)`. -/
def highlightSelector {E D : Type} (host : Host E D) (selector : String) (p : Page E D) :
    Page E D :=
  (host.querySelectorAll p.document selector).foldl (fun q a => (callback host a q).2) p

/-- The three loops of the file, in order, from an empty record of calls. -/
def highlightAll {E D : Type} (host : Host E D) (document : D) : Page E D :=
  highlightSelector host "code.language-elm"
    (highlightSelector host "code.language-prql_no_test"
      (highlightSelector host "code.language-prql" ⟨document, []⟩))

/-- The document after the engine has been invoked on the elements of `es`. -/
def afterHighlight {E D : Type} (host : Host E D) (es : List E) (d : D) : D :=
  es.foldl (fun x a => host.highlightBlock a x) d

/-- The characters a date is written with after the `@`: digits, hyphen, colon. -/
def isDateChar (c : Nat) : Bool := isDigit c || c == 45 || c == 58

/-! ## Lemmas on the matcher -/

theorem ends_chr_cons (p : Nat → Bool) (c : Nat) (t : List Nat) :
    (Re.chr p).ends (c :: t) = if p c then [t] else [] := rfl

theorem ends_chr_nil (p : Nat → Bool) : (Re.chr p).ends [] = [] := rfl

theorem ends_empty (s : List Nat) : Re.empty.ends s = [s] := rfl

theorem ends_seq (a b : Re) (s : List Nat) :
    (Re.seq a b).ends s = (a.ends s).flatMap fun y => b.ends y := rfl

theorem ends_alt (a b : Re) (s : List Nat) :
    (Re.alt a b).ends s = a.ends s ++ b.ends s := rfl

theorem ends_star (r : Re) (s : List Nat) :
    (Re.star r).ends s = starEnds (fun y => r.ends y) s.length s := rfl

theorem ends_plus (r : Re) (s : List Nat) :
    (Re.plus r).ends s =
      (r.ends s).flatMap fun y => starEnds (fun z => r.ends z) y.length y := rfl

theorem ends_opt (r : Re) (s : List Nat) :
    (Re.opt r).ends s = ((r.ends s).filter fun y => y.length != s.length) ++ [s] := rfl

theorem ends_count (n : Nat) (r : Re) (s : List Nat) :
    (Re.count n r).ends s = countEnds (fun y => r.ends y) n s := rfl

theorem starEnds_ne_nil (step : List Nat → List (List Nat)) (n : Nat) (s : List Nat) :
    starEnds step n s ≠ [] := by
  cases n <;> simp [starEnds]

theorem head?_flatMap_cons {α β : Type} (f : α → List β) (a : α) (l : List α) (b : β)
    (h : (f a).head? = some b) : ((a :: l).flatMap f).head? = some b := by
  cases hf : f a with
  | nil => simp [hf] at h
  | cons x xs =>
    rw [hf] at h
    simp at h
    simp [List.flatMap_cons, hf, h]

/-- A match leaves a suffix of the text. -/
theorem starEnds_suffix (step : List Nat → List (List Nat))
    (hstep : ∀ s y, y ∈ step s → y <:+ s) :
    ∀ n s y, y ∈ starEnds step n s → y <:+ s := by
  intro n
  induction n with
  | zero =>
    intro s y hy
    simp [starEnds] at hy
    subst hy
    exact List.suffix_refl _
  | succ n ih =>
    intro s y hy
    simp only [starEnds, List.mem_append, List.mem_flatMap, List.mem_filter,
      List.mem_singleton] at hy
    rcases hy with ⟨z, ⟨hz, _⟩, hyz⟩ | rfl
    · exact (ih z y hyz).trans (hstep s z hz)
    · exact List.suffix_refl _

theorem countEnds_suffix (step : List Nat → List (List Nat))
    (hstep : ∀ s y, y ∈ step s → y <:+ s) :
    ∀ n s y, y ∈ countEnds step n s → y <:+ s := by
  intro n
  induction n with
  | zero =>
    intro s y hy
    simp [countEnds] at hy
    subst hy
    exact List.suffix_refl _
  | succ n ih =>
    intro s y hy
    simp only [countEnds, List.mem_flatMap] at hy
    rcases hy with ⟨z, hz, hyz⟩
    exact (ih z y hyz).trans (hstep s z hz)

theorem ends_suffix : ∀ (r : Re) (s y : List Nat), y ∈ r.ends s → y <:+ s := by
  intro r
  induction r with
  | empty =>
    intro s y hy
    simp [Re.ends] at hy
    subst hy
    exact List.suffix_refl _
  | chr p =>
    intro s y hy
    cases s with
    | nil => simp [Re.ends] at hy
    | cons c t =>
      rw [ends_chr_cons] at hy
      split at hy
      · simp at hy
        rw [hy]
        exact List.suffix_cons c t
      · simp at hy
  | seq a b iha ihb =>
    intro s y hy
    simp only [Re.ends, List.mem_flatMap] at hy
    rcases hy with ⟨z, hz, hyz⟩
    exact (ihb z y hyz).trans (iha s z hz)
  | alt a b iha ihb =>
    intro s y hy
    simp only [Re.ends, List.mem_append] at hy
    rcases hy with hy | hy
    · exact iha s y hy
    · exact ihb s y hy
  | star r ih =>
    intro s y hy
    exact starEnds_suffix _ ih _ s y hy
  | plus r ih =>
    intro s y hy
    simp only [Re.ends, List.mem_flatMap] at hy
    rcases hy with ⟨z, hz, hyz⟩
    exact (starEnds_suffix _ ih _ z y hyz).trans (ih s z hz)
  | opt r ih =>
    intro s y hy
    simp only [Re.ends, List.mem_append, List.mem_filter, List.mem_singleton] at hy
    rcases hy with ⟨hy, _⟩ | rfl
    · exact ih s y hy
    · exact List.suffix_refl _
  | count n r ih =>
    intro s y hy
    exact countEnds_suffix _ ih n s y hy
  | eol =>
    intro s y hy
    cases s with
    | nil =>
      simp [Re.ends] at hy
      subst hy
      exact List.suffix_refl _
    | cons c t =>
      simp only [Re.ends] at hy
      split at hy
      · simp at hy
        subst hy
        exact List.suffix_refl _
      · simp at hy

/-- A greedy run of one character class takes as many characters as it can. -/
theorem starEnds_chr_head (p : Nat → Bool) :
    ∀ n s, s.length ≤ n →
      (starEnds (fun y => (Re.chr p).ends y) n s).head? = some (s.dropWhile p) := by
  intro n
  induction n with
  | zero =>
    intro s hs
    have : s = [] := List.length_eq_zero.mp (Nat.le_zero.mp hs)
    subst this
    rfl
  | succ n ih =>
    intro s hs
    cases s with
    | nil => rfl
    | cons c t =>
      by_cases hp : p c = true
      · have ht : t.length ≤ n := by simpa using hs
        have h := ih t ht
        simp only [starEnds, ends_chr_cons, hp, if_true, List.dropWhile_cons]
        have hf : (([t] : List (List Nat)).filter fun y => y.length != (c :: t).length) = [t] := by
          simp
        rw [hf, List.flatMap_cons, List.flatMap_nil, List.append_nil]
        cases hx : starEnds (fun y => (Re.chr p).ends y) n t with
        | nil => rw [hx] at h; simp at h
        | cons x xs => rw [hx] at h; simpa using h
      · simp [starEnds, ends_chr_cons, hp, List.dropWhile_cons]

/-- A run of a character class stays where it is when the class does not fit. -/
theorem starEnds_chr_stop (p : Nat → Bool) (n : Nat) (s : List Nat)
    (h : s.head?.all (fun c => !p c) = true) :
    starEnds (fun y => (Re.chr p).ends y) n s = [s] := by
  cases n with
  | zero => rfl
  | succ n =>
    cases s with
    | nil => rfl
    | cons c t =>
      have hp : p c = false := by simpa using h
      simp [starEnds, ends_chr_cons, hp]

theorem ends_star_chr_head (p : Nat → Bool) (s : List Nat) :
    ((Re.star (Re.chr p)).ends s).head? = some (s.dropWhile p) :=
  starEnds_chr_head p s.length s (Nat.le_refl _)

theorem ends_plus_chr_head (p : Nat → Bool) (c : Nat) (t : List Nat) (hp : p c = true) :
    ((Re.plus (Re.chr p)).ends (c :: t)).head? = some (t.dropWhile p) := by
  simp only [Re.ends, hp, if_true]
  exact head?_flatMap_cons _ t [] _ (starEnds_chr_head p t.length t (Nat.le_refl _))

theorem ends_plus_chr_fail (p : Nat → Bool) (s : List Nat)
    (h : s.head?.all (fun c => !p c) = true) : (Re.plus (Re.chr p)).ends s = [] := by
  cases s with
  | nil => rfl
  | cons c t =>
    have hp : p c = false := by simpa using h
    simp [Re.ends, hp]

/-! ## Character facts -/

theorem isWord_not_sign (c : Nat) (h : isWord c = true) : isSign c = false := by
  simp only [isWord, isDigit, isSign, Bool.or_eq_true, Bool.and_eq_true, decide_eq_true_eq,
    beq_iff_eq] at h
  simp only [isSign, Bool.or_eq_false_iff, beq_eq_false_iff_ne]
  omega

/-! ## The number rule inside identifiers -/

theorem numberRe_ends_word (s : List Nat) (h : s.head?.all isWord = true) :
    numberRe.ends s = [] := by
  cases s with
  | nil => rfl
  | cons c t =>
    have hw : isWord c = true := by simpa using h
    have hs : isSign c = false := isWord_not_sign c hw
    simp [numberRe, Re.ends, hs, notWord, hw]

/-! ## The date rule -/

theorem head?_filter_flatMap {α β : Type} (l : List α) (a : α) (q : α → Bool)
    (f : α → List β) (b : β) (hl : l.head? = some a) (hq : q a = true)
    (hf : (f a).head? = some b) : ((l.filter q).flatMap f).head? = some b := by
  cases l with
  | nil => simp at hl
  | cons x xs =>
    simp at hl
    subst hl
    rw [List.filter_cons_of_pos hq]
    exact head?_flatMap_cons f x _ b hf

theorem head?_append_left {α : Type} (l m : List α) (a : α) (h : l.head? = some a) :
    (l ++ m).head? = some a := by
  cases l with
  | nil => simp at h
  | cons x xs => simpa using h

theorem length_dropWhile_le (p : Nat → Bool) (s : List Nat) :
    (s.dropWhile p).length ≤ s.length :=
  (List.dropWhile_suffix p).length_le

theorem dateItem_head (s : List Nat) :
    (dateItem.ends s).head? = some (s.dropWhile isDigit) := by
  unfold dateItem
  rw [Re.ends]
  exact head?_append_left _ _ _ (ends_star_chr_head isDigit s)

theorem dateItem_ends_sep (c : Nat) (t : List Nat) (h : c = 45 ∨ c = 58) :
    dateItem.ends (c :: t) = [c :: t, t] := by
  have hd : isDigit c = false := by rcases h with h | h <;> subst h <;> rfl
  have hstar : starEnds (fun y => (Re.chr isDigit).ends y) (t.length + 1) (c :: t) = [c :: t] :=
    starEnds_chr_stop isDigit _ _ (by simp [hd])
  have e1 : lit '-' 45 = true := rfl
  have e2 : lit '.' 45 = false := rfl
  have e3 : lit ':' 45 = false := rfl
  have e4 : lit '-' 58 = false := rfl
  have e5 : lit '.' 58 = false := rfl
  have e6 : lit ':' 58 = true := rfl
  rcases h with h | h <;> subst h <;>
    simp [dateItem, ends_alt, ends_star, ends_seq, ends_chr_cons, hstar, e1, e2, e3, e4, e5, e6]

/-- After the `@`, the repetition of the date group reads digits, hyphens and
colons to the end. -/
theorem date_star_all :
    ∀ n s, s.length ≤ n → (∀ c ∈ s, isDateChar c = true) →
      (starEnds (fun y => dateItem.ends y) n s).head? = some [] := by
  intro n
  induction n with
  | zero =>
    intro s hs _
    have : s = [] := List.length_eq_zero.mp (Nat.le_zero.mp hs)
    subst this
    rfl
  | succ n ih =>
    intro s hs hall
    cases s with
    | nil => rfl
    | cons c t =>
      have ht : t.length ≤ n := by simpa using hs
      have hallt : ∀ x ∈ t, isDateChar x = true := fun x hx => hall x (List.mem_cons_of_mem c hx)
      have hc : isDateChar c = true := hall c (List.mem_cons_self c t)
      rw [starEnds]
      apply head?_append_left
      by_cases hd : isDigit c = true
      · apply head?_filter_flatMap _ ((c :: t).dropWhile isDigit) _ _ _ (dateItem_head _)
        · have : (t.dropWhile isDigit).length ≤ t.length := length_dropWhile_le _ _
          simp [List.dropWhile_cons, hd]
          omega
        · apply ih
          · have : (t.dropWhile isDigit).length ≤ t.length := length_dropWhile_le _ _
            simp [List.dropWhile_cons, hd]
            omega
          · intro x hx
            exact hall x ((List.dropWhile_suffix isDigit).subset hx)
      · have hsep : c = 45 ∨ c = 58 := by
          simp only [isDateChar, Bool.or_eq_true, beq_iff_eq] at hc
          rcases hc with (hc | hc) | hc
          · exact absurd hc hd
          · exact Or.inl hc
          · exact Or.inr hc
        rw [dateItem_ends_sep c t hsep]
        simp only [List.filter_cons, List.length_cons, bne_self_eq_false, Bool.false_eq_true,
          if_false]
        have hq : (t.length != t.length + 1) = true := by simp
        simp only [hq, if_true, List.filter_nil]
        exact head?_flatMap_cons _ t [] _ (ih t ht hallt)

theorem dateRe_whole (t : List Nat) (h : ∀ c ∈ t, isDateChar c = true) :
    (dateRe.ends (64 :: t)).head? = some [] := by
  have h64 : lit '@' 64 = true := rfl
  simp only [dateRe, ends_seq, ends_chr_cons, ends_plus, h64, if_true, List.flatMap_cons,
    List.flatMap_nil, List.append_nil]
  cases hx : dateItem.ends t with
  | nil => have := dateItem_head t; rw [hx] at this; simp at this
  | cons x xs =>
    have hh := dateItem_head t
    rw [hx] at hh
    simp at hh
    apply head?_flatMap_cons
    apply date_star_all _ _ (Nat.le_refl _)
    intro c hc
    rw [hh] at hc
    exact h c ((List.dropWhile_suffix isDigit).subset hc)

/-! ## Lemmas on the engine -/

theorem matchAt_of_head (r : Re) (s y : List Nat) (h : (r.ends s).head? = some y) :
    r.matchAt s = some (s.length - y.length) := by
  simp [Re.matchAt, h]

theorem matchAt_of_nil (r : Re) (s : List Nat) (h : r.ends s = []) : r.matchAt s = none := by
  simp [Re.matchAt, h]

theorem firstAt_cons_none (m : Mode) (ms : List Mode) (s : List Nat)
    (h : m.begin.matchAt s = none) : firstAt (m :: ms) s = firstAt ms s := by
  simp [firstAt, List.findSome?, h]

theorem firstAt_cons_some (m : Mode) (ms : List Mode) (s : List Nat) (n : Nat)
    (h : m.begin.matchAt s = some n) : firstAt (m :: ms) s = some (n, m) := by
  simp [firstAt, List.findSome?, h]

theorem nextMatch_of_firstAt (ms : List Mode) (s : List Nat) (n : Nat) (m : Mode)
    (h : firstAt ms s = some (n, m)) : nextMatch ms s = some (0, n, m) := by
  cases s with
  | nil => simp [nextMatch, h]
  | cons c t => simp [nextMatch, h]

/-- The rules of the descriptor as the engine reads them, in listed order. -/
theorem prql_modes :
    prql.modes =
      [⟨"comment", Re.str ['#'], .eol⟩,
       ⟨"params", namedArgRe, .empty⟩,
       ⟨"string", dateRe, .empty⟩,
       ⟨"attribute", .seq sOrF (Re.str [dq, dq, dq]), Re.str [dq, dq, dq]⟩,
       ⟨"attribute", .seq sOrF (Re.str [dq]), Re.str [dq]⟩,
       ⟨"string", Re.str [dq, dq, dq, dq, dq], Re.str [dq, dq, dq, dq, dq]⟩,
       ⟨"string", Re.str [dq, dq, dq], Re.str [dq, dq, dq]⟩,
       ⟨"string", Re.str [dq], Re.str [dq]⟩,
       ⟨"string", Re.str [sq], Re.str [sq]⟩,
       ⟨"number", numberRe, .empty⟩,
       ⟨"symbol", rangeRe, .empty⟩] := rfl

theorem nextMatch_prql_nil : nextMatch prql.modes [] = none := rfl

/-- A rule that begins at offset 0 and whose span reaches the end of the text
gives the only span of the output. -/
theorem scan_single (l : Language) (fuel : Nat) (s : List Nat) (n i k : Nat) (m : Mode)
    (hnext : nextMatch l.modes s = some (0, n, m))
    (hend : m.end_.exec (s.drop n) = some (i, k))
    (hlen : n + i + k = s.length)
    (hnil : nextMatch l.modes [] = none) :
    scan l (fuel + 2) 0 s = [⟨0, s.length, m.scope⟩] := by
  have hdrop : s.drop (n + i + k) = [] := by rw [hlen]; exact List.drop_length s
  simp [scan, hnext, hend, hlen, hnil, keywordSpans, keywordSpansAux, flushWord]

theorem exec_empty_nil : Re.empty.exec [] = some (0, 0) := rfl

theorem exec_cons_none (r : Re) (c : Nat) (t : List Nat) (h : r.matchAt (c :: t) = none) :
    r.exec (c :: t) = (r.exec t).map fun p => (p.1 + 1, p.2) := by
  rw [Re.exec]
  simp [h]

theorem exec_empty (s : List Nat) : Re.empty.exec s = some (0, 0) := by
  cases s <;> simp [Re.exec, Re.matchAt, ends_empty]

theorem head?_flatMap_of_head {α β : Type} (l : List α) (f : α → List β) (a : α) (b : β)
    (hl : l.head? = some a) (hf : (f a).head? = some b) : (l.flatMap f).head? = some b := by
  cases l with
  | nil => simp at hl
  | cons x xs =>
    simp at hl
    subst hl
    exact head?_flatMap_cons f x xs b hf

theorem dropWhile_append_stop (p : Nat → Bool) (a b : List Nat)
    (ha : ∀ x ∈ a, p x = true) (hb : b.head?.all (fun c => !p c) = true) :
    (a ++ b).dropWhile p = b := by
  induction a with
  | nil =>
    cases b with
    | nil => rfl
    | cons c t =>
      have hc : p c = false := by simpa using hb
      simp [List.dropWhile_cons, hc]
  | cons x xs ih =>
    have hx : p x = true := ha x (List.mem_cons_self x xs)
    simp only [List.cons_append, List.dropWhile_cons, hx, if_true]
    exact ih fun y hy => ha y (List.mem_cons_of_mem x hy)

theorem isSpace_not_word (c : Nat) (h : isSpace c = true) : isWord c = false := by
  simp only [isSpace, Bool.or_eq_true, Bool.and_eq_true, decide_eq_true_eq, beq_iff_eq] at h
  simp only [isWord, isDigit, Bool.or_eq_false_iff, Bool.and_eq_false_iff, decide_eq_false_iff_not,
    beq_eq_false_iff_ne]
  omega

/-- The named-argument pattern reads a name, white space and a colon whole. -/
theorem namedArgRe_whole (c : Nat) (w sp : List Nat) (hc : isWord c = true)
    (hw : ∀ x ∈ w, isWord x = true) (hsp : ∀ x ∈ sp, isSpace x = true) :
    (namedArgRe.ends (c :: (w ++ (sp ++ [58])))).head? = some [] := by
  have hstop : (sp ++ [58]).head?.all (fun x => !isWord x) = true := by
    cases sp with
    | nil => rfl
    | cons x xs =>
      have := isSpace_not_word x (hsp x (List.mem_cons_self x xs))
      simp [this]
  have h1 := ends_plus_chr_head isWord c (w ++ (sp ++ [58])) hc
  rw [dropWhile_append_stop isWord w (sp ++ [58]) hw hstop] at h1
  rw [namedArgRe, ends_seq]
  apply head?_flatMap_of_head _ _ _ _ h1
  rw [ends_seq]
  have h2 := ends_star_chr_head isSpace (sp ++ [58])
  rw [dropWhile_append_stop isSpace sp [58] hsp rfl] at h2
  exact head?_flatMap_of_head _ _ _ _ h2 rfl

/-! ## Strings -/

theorem lit_dq_ne (x : Nat) (h : x ≠ 34) : lit dq x = false := by
  have e : dq.toNat = 34 := rfl
  simp only [lit, canon, e, beq_eq_false_iff_ne]
  split
  · simp_all
    omega
  · simp_all

theorem str_ends_fail (ch : Char) (cs : List Char) (c : Nat) (s : List Nat)
    (h : lit ch c = false) : (Re.str (ch :: cs)).ends (c :: s) = [] := by
  cases cs with
  | nil => simp [Re.str, ends_chr_cons, h]
  | cons d ds => simp [Re.str, ends_seq, ends_chr_cons, h]

/-- The closing quote is found at the first double quote of the text. -/
theorem exec_dq (t : List Nat) (ht : 34 ∉ t) :
    (Re.str [dq]).exec (t ++ [34]) = some (t.length, 1) := by
  induction t with
  | nil => rfl
  | cons x xs ih =>
    have hx : x ≠ 34 := fun e => ht (by simp [e])
    have hxs : 34 ∉ xs := fun e => ht (List.mem_cons_of_mem x e)
    have hm : (Re.str [dq]).matchAt (x :: (xs ++ [34])) = none :=
      matchAt_of_nil _ _ (str_ends_fail dq [] x _ (lit_dq_ne x hx))
    rw [List.cons_append, exec_cons_none _ _ _ hm, ih hxs]
    rfl

/-- Three quotes do not stand at the start of a text with one quote before the
next quote-free stretch. -/
theorem str_dq3_fail (t : List Nat) (ht : 34 ∉ t) :
    (Re.str [dq, dq, dq]).ends (34 :: (t ++ [34])) = [] := by
  have e : lit dq 34 = true := rfl
  cases t with
  | nil => simp [Re.str, ends_seq, ends_chr_cons, ends_chr_nil, e]
  | cons x xs =>
    have hx : x ≠ 34 := fun h => ht (by simp [h])
    simp [Re.str, ends_seq, ends_chr_cons, e, lit_dq_ne x hx]

/-- The date pattern matches wherever an `@` stands, over at least the `@`. -/
theorem dateRe_at_sign (t : List Nat) :
    ∃ n, 1 ≤ n ∧ dateRe.matchAt (64 :: t) = some n := by
  have h64 : lit '@' 64 = true := rfl
  have hends : dateRe.ends (64 :: t) = (Re.plus dateItem).ends t := by
    simp only [dateRe, ends_seq, ends_chr_cons, h64, if_true, List.flatMap_cons,
      List.flatMap_nil, List.append_nil]
  cases hp : (Re.plus dateItem).ends t with
  | nil =>
    exfalso
    rw [ends_plus] at hp
    cases hx : dateItem.ends t with
    | nil => have := dateItem_head t; rw [hx] at this; simp at this
    | cons x xs =>
      rw [hx, List.flatMap_cons] at hp
      have := List.append_eq_nil.mp hp
      exact starEnds_ne_nil _ _ _ this.1
  | cons y ys =>
    have hy : y <:+ t := ends_suffix (Re.plus dateItem) t y (by rw [hp]; exact List.mem_cons_self y ys)
    have hl : y.length ≤ t.length := hy.length_le
    refine ⟨(64 :: t).length - y.length, ?_, ?_⟩
    · simp; omega
    · apply matchAt_of_head
      rw [hends, hp]
      rfl

/-! ## The scan reaches every `@` -/

/-- A pattern that must read a character leaves strictly less text. -/
theorem ends_lt : ∀ (r : Re), r.consumes = true →
    ∀ (s y : List Nat), y ∈ r.ends s → y.length < s.length := by
  intro r
  induction r with
  | empty => intro h; exact absurd h (by simp [Re.consumes])
  | chr p =>
    intro _ s y hy
    cases s with
    | nil => simp [Re.ends] at hy
    | cons c t =>
      rw [ends_chr_cons] at hy
      split at hy
      · simp at hy
        rw [hy]
        simp
      · simp at hy
  | seq a b iha ihb =>
    intro h s y hy
    simp only [Re.ends, List.mem_flatMap] at hy
    rcases hy with ⟨z, hz, hyz⟩
    have h1 : z.length ≤ s.length := (ends_suffix a s z hz).length_le
    have h2 : y.length ≤ z.length := (ends_suffix b z y hyz).length_le
    simp only [Re.consumes, Bool.or_eq_true] at h
    rcases h with h | h
    · have := iha h s z hz
      omega
    · have := ihb h z y hyz
      omega
  | alt a b iha ihb =>
    intro h s y hy
    simp only [Re.consumes, Bool.and_eq_true] at h
    simp only [Re.ends, List.mem_append] at hy
    rcases hy with hy | hy
    · exact iha h.1 s y hy
    · exact ihb h.2 s y hy
  | star r _ => intro h; exact absurd h (by simp [Re.consumes])
  | plus r ih =>
    intro h s y hy
    simp only [Re.ends, List.mem_flatMap] at hy
    rcases hy with ⟨z, hz, hyz⟩
    have h1 := ih h s z hz
    have h2 : y.length ≤ z.length :=
      (starEnds_suffix _ (fun u v hv => ends_suffix r u v hv) _ z y hyz).length_le
    omega
  | opt r _ => intro h; exact absurd h (by simp [Re.consumes])
  | count n r ih =>
    intro h s y hy
    simp only [Re.consumes, Bool.and_eq_true, bne_iff_ne, ne_eq] at h
    cases n with
    | zero => exact absurd rfl h.1
    | succ k =>
      simp only [Re.ends, countEnds, List.mem_flatMap] at hy
      rcases hy with ⟨z, hz, hyz⟩
      have h1 := ih h.2 s z hz
      have h2 : y.length ≤ z.length :=
        (countEnds_suffix _ (fun u v hv => ends_suffix r u v hv) k z y hyz).length_le
      omega
  | eol => intro h; exact absurd h (by simp [Re.consumes])

theorem matchAt_pos (r : Re) (hr : r.consumes = true) (s : List Nat) (n : Nat)
    (h : r.matchAt s = some n) : 1 ≤ n := by
  cases he : r.ends s with
  | nil => simp [Re.matchAt, he] at h
  | cons y ys =>
    have hy := ends_lt r hr s y (by rw [he]; exact List.mem_cons_self y ys)
    simp [Re.matchAt, he] at h
    omega

theorem firstAt_mem (ms : List Mode) (s : List Nat) (n : Nat) (m : Mode)
    (h : firstAt ms s = some (n, m)) : m ∈ ms ∧ m.begin.matchAt s = some n := by
  induction ms with
  | nil => simp [firstAt] at h
  | cons a as ih =>
    cases ha : a.begin.matchAt s with
    | none =>
      rw [firstAt_cons_none a as s ha] at h
      exact ⟨List.mem_cons_of_mem a (ih h).1, (ih h).2⟩
    | some k =>
      rw [firstAt_cons_some a as s k ha] at h
      simp at h
      rcases h with ⟨hk, hm⟩
      subst hk
      subst hm
      exact ⟨List.mem_cons_self _ _, ha⟩

/-- Every begin pattern of the descriptor reads at least one character. -/
theorem prql_begins_consume : ∀ m ∈ prql.modes, m.begin.consumes = true := by
  decide

/-- When a rule begins at offset `j`, the next rule to begin is found at an
offset not after `j`, and it is a rule beginning at the offset found. -/
theorem nextMatch_le (ms : List Mode) :
    ∀ (s : List Nat) (j : Nat) (p : Nat × Mode), firstAt ms (s.drop j) = some p →
      ∃ o n m, nextMatch ms s = some (o, n, m) ∧ o ≤ j ∧
        firstAt ms (s.drop o) = some (n, m) := by
  intro s
  induction s with
  | nil =>
    intro j p h
    rw [List.drop_nil] at h
    exact ⟨0, p.1, p.2, by simp [nextMatch, h], Nat.zero_le _, by simpa using h⟩
  | cons c t ih =>
    intro j p h
    cases hf : firstAt ms (c :: t) with
    | some q =>
      exact ⟨0, q.1, q.2, by simp [nextMatch, hf], Nat.zero_le _, by simpa using hf⟩
    | none =>
      cases j with
      | zero =>
        rw [List.drop_zero, hf] at h
        exact Option.noConfusion h
      | succ k =>
        rw [List.drop_succ_cons] at h
        obtain ⟨o, n, m, hnext, hle, hfo⟩ := ih k p h
        refine ⟨o + 1, n, m, ?_, Nat.succ_le_succ hle, ?_⟩
        · simp [nextMatch, hf, hnext]
        · rw [List.drop_succ_cons]
          exact hfo

/-- One step of the scan: the span of the next rule has at least the length of
its begin, exactly that length when the end pattern matches the empty text at
once, and the scan goes on after the span. -/
theorem scan_step (l : Language) (fuel pos : Nat) (s : List Nat) (o n : Nat) (m : Mode)
    (hnext : nextMatch l.modes s = some (o, n, m)) :
    ∃ len, n ≤ len ∧ (m.end_.exec (s.drop (o + n)) = some (0, 0) → len = n) ∧
      scan l (fuel + 1) pos s =
        keywordSpans l pos (s.take o) ++
          ⟨pos + o, len, m.scope⟩ :: scan l fuel (pos + o + len) (s.drop (o + len)) := by
  cases he : m.end_.exec (s.drop (o + n)) with
  | none =>
    refine ⟨n + (s.drop (o + n)).length, Nat.le_add_right _ _, fun h => Option.noConfusion h, ?_⟩
    simp only [scan, hnext, he]
  | some q =>
    refine ⟨n + q.1 + q.2, by omega, ?_, ?_⟩
    · intro h
      have hq : q = (0, 0) := Option.some.inj h
      rw [hq]
      rfl
    · simp only [scan, hnext, he]

/-- At an `@` the date rule is the first rule to begin. -/
theorem firstAt_at_sign (t : List Nat) :
    ∃ n, 1 ≤ n ∧ dateRe.matchAt (64 :: t) = some n ∧
      firstAt prql.modes (64 :: t) = some (n, ⟨"string", dateRe, .empty⟩) := by
  obtain ⟨n, hn, hmatch⟩ := dateRe_at_sign t
  have hcomment : (Re.str ['#']).matchAt (64 :: t) = none :=
    matchAt_of_nil _ _ (str_ends_fail _ _ _ _ rfl)
  have hnamed : namedArgRe.matchAt (64 :: t) = none := by
    apply matchAt_of_nil
    rw [namedArgRe, ends_seq, ends_plus_chr_fail isWord (64 :: t) rfl]
    rfl
  refine ⟨n, hn, hmatch, ?_⟩
  rw [prql_modes, firstAt_cons_none _ _ _ hcomment, firstAt_cons_none _ _ _ hnamed]
  exact firstAt_cons_some _ _ _ _ hmatch

/-- The scan either emits a span that begins before offset `j` and covers it, or
it arrives at offset `j` and emits the span of the date rule there. -/
theorem scan_at_sign (n : Nat) :
    ∀ (fuel pos : Nat) (s : List Nat) (j : Nat), s.length < fuel → j < s.length →
      firstAt prql.modes (s.drop j) = some (n, ⟨"string", dateRe, .empty⟩) →
      (∃ x ∈ scan prql fuel pos s, x.start < pos + j ∧ pos + j < x.start + x.len) ∨
        (⟨pos + j, n, "string"⟩ : Span) ∈ scan prql fuel pos s := by
  intro fuel
  induction fuel with
  | zero => intro pos s j hf; exact absurd hf (Nat.not_lt_zero _)
  | succ fuel ih =>
    intro pos s j hf hj hdate
    obtain ⟨o, k, m, hnext, hle, hfo⟩ := nextMatch_le prql.modes s j _ hdate
    obtain ⟨len, hlen, hlen0, hscan⟩ := scan_step prql fuel pos s o k m hnext
    have hk : 1 ≤ k :=
      matchAt_pos m.begin (prql_begins_consume m (firstAt_mem _ _ _ _ hfo).1) _ k
        (firstAt_mem _ _ _ _ hfo).2
    rw [hscan]
    rcases Nat.lt_or_ge o j with hlt | hge
    · by_cases hcover : j < o + len
      · left
        refine ⟨⟨pos + o, len, m.scope⟩, ?_, ?_, ?_⟩
        · simp
        · show pos + o < pos + j
          omega
        · show pos + j < pos + o + len
          omega
      · have hrest : (s.drop (o + len)).length < fuel := by
          rw [List.length_drop]
          omega
        have hj2 : j - (o + len) < (s.drop (o + len)).length := by
          rw [List.length_drop]
          omega
        have hd : (s.drop (o + len)).drop (j - (o + len)) = s.drop j := by
          rw [List.drop_drop]
          congr 1
          omega
        have hpos : pos + o + len + (j - (o + len)) = pos + j := by omega
        have := ih (pos + o + len) (s.drop (o + len)) (j - (o + len)) hrest hj2
          (by rw [hd]; exact hdate)
        rw [hpos] at this
        rcases this with ⟨x, hx, h1, h2⟩ | h
        · left
          exact ⟨x, by simp [hx], h1, h2⟩
        · right
          simp [h]
    · have hoj : o = j := Nat.le_antisymm hle hge
      subst hoj
      rw [hdate] at hfo
      simp at hfo
      rcases hfo with ⟨hk2, hm⟩
      subst hk2
      subst hm
      have := hlen0 (exec_empty _)
      subst this
      right
      simp

/-! ## Claims -/

/-- C7: in a text made of word characters only (letters, digits, underscore) the
pattern of the number rule matches at no offset, so it has no leftmost match. -/
theorem number_not_inside_identifier (s : List Nat) (h : ∀ c ∈ s, isWord c = true) :
    (∀ i, numberRe.matchAt (s.drop i) = none) ∧ numberRe.exec s = none := by
  have key : ∀ u : List Nat, (∀ c ∈ u, isWord c = true) → numberRe.matchAt u = none := by
    intro u hu
    apply matchAt_of_nil
    apply numberRe_ends_word
    cases u with
    | nil => rfl
    | cons c t => simpa using hu c (List.mem_cons_self c t)
  constructor
  · intro i
    exact key _ fun c hc => h c (List.mem_of_mem_drop hc)
  · induction s with
    | nil => simp [Re.exec, key [] (by simp)]
    | cons c t ih =>
      have ht : ∀ x ∈ t, isWord x = true := fun x hx => h x (List.mem_cons_of_mem c hx)
      simp [Re.exec, key (c :: t) h, ih ht]

theorem number_not_inside_identifier_witness :
    (∀ c ∈ units "foo_1", isWord c = true) ∧
      (∀ i, numberRe.matchAt ((units "foo_1").drop i) = none) ∧
      numberRe.exec (units "foo_1") = none :=
  ⟨by decide, number_not_inside_identifier (units "foo_1") (by decide)⟩

/-- C3: for a text made of `@` and then digits, hyphens and colons, the pattern
of the date rule matches the whole text from offset 0; no rule listed before the
date rule begins at offset 0, so the date rule is the one chosen there, and the
whole text is one span of class string. -/
theorem date_rule_tags_whole_text (t : List Nat) (h : ∀ c ∈ t, isDateChar c = true) :
    dateRe.matchAt (64 :: t) = some (t.length + 1) ∧
      prql.modes[2]? = some ⟨"string", dateRe, .empty⟩ ∧
      (∀ i m, prql.modes[i]? = some m → (m.begin.matchAt (64 :: t)).isSome = true → 2 ≤ i) ∧
      firstAt prql.modes (64 :: t) = some (t.length + 1, ⟨"string", dateRe, .empty⟩) ∧
      highlight prql (64 :: t) = [⟨0, t.length + 1, "string"⟩] := by
  have hdate : dateRe.matchAt (64 :: t) = some (t.length + 1) := by
    have := matchAt_of_head dateRe (64 :: t) [] (dateRe_whole t h)
    simpa using this
  have hcomment : (Re.str ['#']).matchAt (64 :: t) = none := by
    apply matchAt_of_nil
    have e : lit '#' 64 = false := rfl
    simp [Re.str, ends_chr_cons, e]
  have hnamed : namedArgRe.matchAt (64 :: t) = none := by
    apply matchAt_of_nil
    rw [namedArgRe, ends_seq, ends_plus_chr_fail isWord (64 :: t) rfl]
    rfl
  have hfirst : firstAt prql.modes (64 :: t) = some (t.length + 1, ⟨"string", dateRe, .empty⟩) := by
    rw [prql_modes, firstAt_cons_none _ _ _ hcomment, firstAt_cons_none _ _ _ hnamed]
    exact firstAt_cons_some _ _ _ _ hdate
  refine ⟨hdate, rfl, ?_, hfirst, ?_⟩
  · intro i m hm hsome
    rcases i with _ | _ | i
    · rw [prql_modes] at hm
      simp at hm
      subst hm
      rw [hcomment] at hsome
      simp at hsome
    · rw [prql_modes] at hm
      simp at hm
      subst hm
      rw [hnamed] at hsome
      simp at hsome
    · omega
  · have := scan_single prql t.length (64 :: t) (t.length + 1) 0 0 _
      (nextMatch_of_firstAt _ _ _ _ hfirst)
      (by simp [exec_empty_nil]) (by simp) nextMatch_prql_nil
    simpa [highlight] using this

theorem date_rule_tags_whole_text_witness :
    (∀ c ∈ units "2020-01-01", isDateChar c = true) ∧
      numberRe.matchAt (units "@2020-01-01") = some 5 ∧
      highlight prql (units "@2020-01-01") = [⟨0, 11, "string"⟩] :=
  ⟨by decide, by decide,
    (date_rule_tags_whole_text (units "2020-01-01") (by decide)).2.2.2.2⟩

/-- C5: the keyword list is the three groups one after the other (12 transforms,
`switch in as`, `func table prql`), no word is repeated, none is one of the
literals `false true null and or not`, the descriptor is case-insensitive, and
every spelling of a keyword in upper and lower case is classified keyword. -/
theorem keywords_classified :
    prql.keywords.keyword = TRANSFORMS ++ BUILTIN_FUNCTIONS ++ KEYWORDS ∧
      TRANSFORMS.length = 12 ∧ BUILTIN_FUNCTIONS.length = 3 ∧ KEYWORDS.length = 3 ∧
      (prql.keywords.keyword.map units).Nodup ∧
      splitSpace (units prql.keywords.literal) =
        ["false", "true", "null", "and", "or", "not"].map units ∧
      (∀ w ∈ prql.keywords.keyword, units w ∉ splitSpace (units prql.keywords.literal)) ∧
      prql.case_insensitive = true ∧
      (∀ w ∈ prql.keywords.keyword, ∀ s : List Nat, lower s = units w →
        prql.classify s = some "keyword") := by
  refine ⟨rfl, rfl, rfl, rfl, by decide, by decide, by decide, rfl, ?_⟩
  intro w hw s hs
  have hcls : prql.classify s = prql.keywordTable.reverse.lookup (lower s) := rfl
  have key : ∀ w ∈ prql.keywords.keyword,
      prql.keywordTable.reverse.lookup (units w) = some "keyword" := by decide
  rw [hcls, hs]
  exact key w hw

theorem keywords_classified_witness :
    lower (units "SeLeCT") = units "select" ∧
      prql.classify (units "SeLeCT") = some "keyword" ∧
      highlight prql (units "select a, b") = [⟨0, 6, "keyword"⟩] :=
  ⟨by decide,
    keywords_classified.2.2.2.2.2.2.2.2 "select" (by decide) (units "SeLeCT") (by decide),
    by decide⟩

/-- C8: after the three registrations every name maps to `formatting` if it is
`prql`, `prql_no_test` or `elm`, whatever was registered under it before, and
to what it mapped to before otherwise. -/
theorem registration_overwrites (registry : String → Option (Hljs → Language)) (n : String) :
    registerAll registry n =
      if n = "prql" ∨ n = "prql_no_test" ∨ n = "elm" then some formatting else registry n := by
  unfold registerAll registerLanguage
  by_cases h1 : n = "elm"
  · simp [h1]
  · by_cases h2 : n = "prql_no_test"
    · simp [h2]
    · by_cases h3 : n = "prql"
      · simp [h3]
      · simp [h1, h2, h3]

theorem highlightSelector_eq {E D : Type} (host : Host E D) (selector : String)
    (p : Page E D) :
    highlightSelector host selector p =
      (host.querySelectorAll p.document selector).foldl (fun q a => (callback host a q).2) p :=
  rfl

theorem highlightSelector_events {E D : Type} (host : Host E D) :
    ∀ (es : List E) (p : Page E D),
      (es.foldl (fun q a => (callback host a q).2) p).events =
          p.events ++ es.flatMap (fun a => [Event.log a, Event.highlightBlock a]) ∧
        (es.foldl (fun q a => (callback host a q).2) p).document =
          afterHighlight host es p.document := by
  intro es
  induction es with
  | nil => intro p; simp [afterHighlight]
  | cons a es ih =>
    intro p
    have hstep : (callback host a p).2 =
        ⟨host.highlightBlock a p.document, p.events ++ [Event.log a] ++ [Event.highlightBlock a]⟩ :=
      rfl
    rw [List.foldl_cons, hstep]
    have := ih ⟨host.highlightBlock a p.document,
      p.events ++ [Event.log a] ++ [Event.highlightBlock a]⟩
    simp only [afterHighlight, List.foldl_cons, List.flatMap_cons] at this ⊢
    constructor
    · rw [this.1]; simp
    · exact this.2

/-- C9: the record of calls after the three loops is, for the selectors
`code.language-prql`, `code.language-prql_no_test`, `code.language-elm` in this
order and for each element of the query result in query order, one log line for
the element followed at once by one `highlightBlock` call on the same element;
no call is skipped, so there are as many log lines as highlight calls, one of
each per element. -/
theorem loops_log_then_highlight {E D : Type} (host : Host E D) (document : D) :
    let e1 := host.querySelectorAll document "code.language-prql"
    let d1 := afterHighlight host e1 document
    let e2 := host.querySelectorAll d1 "code.language-prql_no_test"
    let d2 := afterHighlight host e2 d1
    let e3 := host.querySelectorAll d2 "code.language-elm"
    (highlightAll host document).events =
        (e1 ++ e2 ++ e3).flatMap (fun a => [Event.log a, Event.highlightBlock a]) ∧
      ((highlightAll host document).events.filter Event.isLog).length =
        (e1 ++ e2 ++ e3).length ∧
      ((highlightAll host document).events.filter Event.isHighlight).length =
        (e1 ++ e2 ++ e3).length ∧
      (∀ a p, (callback host a p).2.events =
        p.events ++ [Event.log a, Event.highlightBlock a]) := by
  intro e1 d1 e2 d2 e3
  have h1 := highlightSelector_events host e1 ⟨document, []⟩
  have hp1 : highlightSelector host "code.language-prql" ⟨document, []⟩ =
      e1.foldl (fun q a => (callback host a q).2) ⟨document, []⟩ := rfl
  have hdoc1 : (highlightSelector host "code.language-prql" ⟨document, []⟩).document = d1 := by
    rw [hp1]; exact h1.2
  have hp2 : highlightSelector host "code.language-prql_no_test"
        (highlightSelector host "code.language-prql" ⟨document, []⟩) =
      e2.foldl (fun q a => (callback host a q).2)
        (highlightSelector host "code.language-prql" ⟨document, []⟩) := by
    rw [highlightSelector_eq host "code.language-prql_no_test", hdoc1]
  have h2 := highlightSelector_events host e2
    (highlightSelector host "code.language-prql" ⟨document, []⟩)
  have hdoc2 : (highlightSelector host "code.language-prql_no_test"
      (highlightSelector host "code.language-prql" ⟨document, []⟩)).document = d2 := by
    rw [hp2, h2.2, hdoc1]
  have hp3 : highlightAll host document =
      e3.foldl (fun q a => (callback host a q).2)
        (highlightSelector host "code.language-prql_no_test"
          (highlightSelector host "code.language-prql" ⟨document, []⟩)) := by
    unfold highlightAll
    rw [highlightSelector_eq host "code.language-elm", hdoc2]
  have h3 := highlightSelector_events host e3
    (highlightSelector host "code.language-prql_no_test"
      (highlightSelector host "code.language-prql" ⟨document, []⟩))
  have hev : (highlightAll host document).events =
      (e1 ++ e2 ++ e3).flatMap (fun a => [Event.log a, Event.highlightBlock a]) := by
    rw [hp3, h3.1, hp2, h2.1, hp1, h1.1]
    simp [List.flatMap_append]
  have hlog : ∀ es : List E,
      ((es.flatMap (fun a => [Event.log a, Event.highlightBlock a])).filter Event.isLog).length =
        es.length := by
    intro es
    induction es with
    | nil => rfl
    | cons a es ih => simp [List.flatMap_cons, List.filter_cons, Event.isLog, ih]
  have hhl : ∀ es : List E,
      ((es.flatMap (fun a => [Event.log a, Event.highlightBlock a])).filter
        Event.isHighlight).length = es.length := by
    intro es
    induction es with
    | nil => rfl
    | cons a es ih => simp [List.flatMap_cons, List.filter_cons, Event.isHighlight, ih]
  refine ⟨hev, ?_, ?_, ?_⟩
  · rw [hev]; exact hlog _
  · rw [hev]; exact hhl _
  · intro a p
    simp [callback, consoleLog, highlightBlock, JsValue.truthy]

/-- C6: for a non-empty name `w` of word characters and a run `sp` of white
space, the begin pattern of the named-argument rule matches the whole of `w`,
`sp` and a colon from offset 0; the rule has class params; no rule listed before
it begins at offset 0, so it is the rule chosen there, and the text is one span
of class params. -/
theorem named_arg_rule_first (w sp : List Nat) (hne : w ≠ [])
    (hw : ∀ x ∈ w, isWord x = true) (hsp : ∀ x ∈ sp, isSpace x = true) :
    namedArgRule.begin = some namedArgRe ∧ namedArgRule.scope = "params" ∧
      namedArgRe.matchAt (w ++ sp ++ [58]) = some (w.length + sp.length + 1) ∧
      prql.modes[1]? = some ⟨"params", namedArgRe, .empty⟩ ∧
      (∀ i m, prql.modes[i]? = some m →
        (m.begin.matchAt (w ++ sp ++ [58])).isSome = true → 1 ≤ i) ∧
      firstAt prql.modes (w ++ sp ++ [58]) =
        some (w.length + sp.length + 1, ⟨"params", namedArgRe, .empty⟩) ∧
      highlight prql (w ++ sp ++ [58]) = [⟨0, w.length + sp.length + 1, "params"⟩] := by
  cases w with
  | nil => exact absurd rfl hne
  | cons c w =>
    have hc : isWord c = true := hw c (List.mem_cons_self c w)
    have hw2 : ∀ x ∈ w, isWord x = true := fun x hx => hw x (List.mem_cons_of_mem c hx)
    have htext : c :: w ++ sp ++ [58] = c :: (w ++ (sp ++ [58])) := by simp
    have hlen : (c :: (w ++ (sp ++ [58]))).length = (c :: w).length + sp.length + 1 := by
      simp; omega
    have hnamed : namedArgRe.matchAt (c :: (w ++ (sp ++ [58]))) =
        some ((c :: w).length + sp.length + 1) := by
      have := matchAt_of_head namedArgRe _ [] (namedArgRe_whole c w sp hc hw2 hsp)
      rw [this, hlen]; rfl
    have hcomment : (Re.str ['#']).matchAt (c :: (w ++ (sp ++ [58]))) = none := by
      apply matchAt_of_nil
      have e : lit '#' c = false := by
        simp only [isWord, isDigit, Bool.or_eq_true, Bool.and_eq_true, decide_eq_true_eq,
          beq_iff_eq] at hc
        simp only [lit, canon, beq_eq_false_iff_ne]
        have e35 : Char.toNat '#' = 35 := rfl
        rw [e35]
        split <;> simp_all <;> omega
      simp [Re.str, ends_chr_cons, e]
    have hfirst : firstAt prql.modes (c :: (w ++ (sp ++ [58]))) =
        some ((c :: w).length + sp.length + 1, ⟨"params", namedArgRe, .empty⟩) := by
      rw [prql_modes, firstAt_cons_none _ _ _ hcomment]
      exact firstAt_cons_some _ _ _ _ hnamed
    rw [htext]
    refine ⟨rfl, rfl, hnamed, rfl, ?_, hfirst, ?_⟩
    · intro i m hm hsome
      rcases i with _ | i
      · rw [prql_modes] at hm
        simp at hm
        subst hm
        rw [hcomment] at hsome
        simp at hsome
      · omega
    · have := scan_single prql (w.length + sp.length + 1) (c :: (w ++ (sp ++ [58])))
        ((c :: w).length + sp.length + 1) 0 0 _
        (nextMatch_of_firstAt _ _ _ _ hfirst)
        (exec_empty _) (by simp; omega) nextMatch_prql_nil
      rw [hlen] at this
      rw [highlight, hlen]
      have hf : (c :: w).length + sp.length + 1 + 1 = w.length + sp.length + 1 + 2 := by
        simp; omega
      rw [hf]
      exact this

theorem named_arg_rule_first_witness :
    (∀ x ∈ units "name", isWord x = true) ∧ (∀ x ∈ units " \t", isSpace x = true) ∧
      namedArgRe.matchAt (units "name \t:") = some 7 ∧
      highlight prql (units "name \t:") = [⟨0, 7, "params"⟩] :=
  have h := named_arg_rule_first (units "name") (units " \t") (by decide) (by decide) (by decide)
  ⟨by decide, by decide, h.2.2.1, h.2.2.2.2.2.2⟩

/-- C4: for a text `t` without a double quote, in `s"t"` and in `f"t"` the
three-quote variant of the interpolation rule does not begin at offset 0, the
one-quote variant does, no other rule of the descriptor begins there, the end
pattern is first found at the final quote, and the whole fragment is the one
span of the output, of class attribute (so no part has class string). -/
theorem interpolation_tags_whole_fragment (p : Nat) (t : List Nat)
    (hp : p = 115 ∨ p = 102) (ht : 34 ∉ t) :
    interpolationRule.scope = "attribute" ∧
      prql.modes[3]? = some ⟨"attribute", .seq sOrF (Re.str [dq, dq, dq]), Re.str [dq, dq, dq]⟩ ∧
      prql.modes[4]? = some ⟨"attribute", .seq sOrF (Re.str [dq]), Re.str [dq]⟩ ∧
      (Re.seq sOrF (Re.str [dq])).matchAt (p :: 34 :: (t ++ [34])) = some 2 ∧
      (∀ i m, prql.modes[i]? = some m →
        (m.begin.matchAt (p :: 34 :: (t ++ [34]))).isSome = true → i = 4) ∧
      (Re.str [dq]).exec (t ++ [34]) = some (t.length, 1) ∧
      highlight prql (p :: 34 :: (t ++ [34])) = [⟨0, t.length + 3, "attribute"⟩] ∧
      (∀ x ∈ highlight prql (p :: 34 :: (t ++ [34])), x.scope ≠ "string") := by
  have hword : isWord p = true := by rcases hp with h | h <;> subst h <;> rfl
  have hsf : sOrF.ends (p :: 34 :: (t ++ [34])) = [34 :: (t ++ [34])] := by
    rcases hp with h | h <;> subst h <;> rfl
  have hlit : ∀ ch : Char, isWord ch.toNat = false → canon ch.toNat = ch.toNat →
      lit ch p = false := by
    intro ch h1 h2
    have hcp : isWord (canon p) = true := by rcases hp with h | h <;> subst h <;> rfl
    simp only [lit, h2, beq_eq_false_iff_ne]
    intro e
    rw [e, h1] at hcp
    exact Bool.noConfusion hcp
  have e34 : lit dq 34 = true := rfl
  have h0 : (Re.str ['#']).matchAt (p :: 34 :: (t ++ [34])) = none :=
    matchAt_of_nil _ _ (str_ends_fail _ _ _ _ (hlit '#' rfl rfl))
  have h1 : namedArgRe.matchAt (p :: 34 :: (t ++ [34])) = none := by
    apply matchAt_of_nil
    have hw : starEnds (fun y => (Re.chr isWord).ends y) (34 :: (t ++ [34])).length
        (34 :: (t ++ [34])) = [34 :: (t ++ [34])] := starEnds_chr_stop isWord _ _ rfl
    have hs : starEnds (fun y => (Re.chr isSpace).ends y) (34 :: (t ++ [34])).length
        (34 :: (t ++ [34])) = [34 :: (t ++ [34])] := starEnds_chr_stop isSpace _ _ rfl
    have e58 : lit ':' 34 = false := rfl
    rw [namedArgRe, ends_seq, ends_plus, ends_chr_cons, hword]
    simp only [if_true, List.flatMap_cons, List.flatMap_nil, List.append_nil, hw]
    rw [ends_seq, ends_star, hs]
    simp [ends_chr_cons, e58]
  have h2 : dateRe.matchAt (p :: 34 :: (t ++ [34])) = none := by
    apply matchAt_of_nil
    simp [dateRe, ends_seq, ends_chr_cons, hlit '@' rfl rfl]
  have h3 : (Re.seq sOrF (Re.str [dq, dq, dq])).matchAt (p :: 34 :: (t ++ [34])) = none := by
    apply matchAt_of_nil
    rw [ends_seq, hsf]
    simp [str_dq3_fail t ht]
  have h4 : (Re.seq sOrF (Re.str [dq])).matchAt (p :: 34 :: (t ++ [34])) = some 2 := by
    have : ((Re.seq sOrF (Re.str [dq])).ends (p :: 34 :: (t ++ [34]))).head? =
        some (t ++ [34]) := by
      rw [ends_seq, hsf]
      simp [Re.str, ends_chr_cons, e34]
    rw [matchAt_of_head _ _ _ this]
    simp
  have hq : lit dq p = false := lit_dq_ne p (by rcases hp with h | h <;> subst h <;> decide)
  have hsq : lit sq p = false := hlit sq rfl rfl
  have h5 : (Re.str [dq, dq, dq, dq, dq]).matchAt (p :: 34 :: (t ++ [34])) = none :=
    matchAt_of_nil _ _ (str_ends_fail _ _ _ _ hq)
  have h6 : (Re.str [dq, dq, dq]).matchAt (p :: 34 :: (t ++ [34])) = none :=
    matchAt_of_nil _ _ (str_ends_fail _ _ _ _ hq)
  have h7 : (Re.str [dq]).matchAt (p :: 34 :: (t ++ [34])) = none :=
    matchAt_of_nil _ _ (str_ends_fail _ _ _ _ hq)
  have h8 : (Re.str [sq]).matchAt (p :: 34 :: (t ++ [34])) = none :=
    matchAt_of_nil _ _ (str_ends_fail _ _ _ _ hsq)
  have h9 : numberRe.matchAt (p :: 34 :: (t ++ [34])) = none :=
    matchAt_of_nil _ _ (numberRe_ends_word _ (by simpa using hword))
  have h10 : rangeRe.matchAt (p :: 34 :: (t ++ [34])) = none := by
    apply matchAt_of_nil
    simp [rangeRe, ends_count, countEnds, ends_chr_cons, hlit '.' rfl rfl]
  have hfirst : firstAt prql.modes (p :: 34 :: (t ++ [34])) =
      some (2, ⟨"attribute", .seq sOrF (Re.str [dq]), Re.str [dq]⟩) := by
    rw [prql_modes, firstAt_cons_none _ _ _ h0, firstAt_cons_none _ _ _ h1,
      firstAt_cons_none _ _ _ h2, firstAt_cons_none _ _ _ h3]
    exact firstAt_cons_some _ _ _ _ h4
  have hhl : highlight prql (p :: 34 :: (t ++ [34])) = [⟨0, t.length + 3, "attribute"⟩] := by
    have := scan_single prql (t.length + 2) (p :: 34 :: (t ++ [34])) 2 t.length 1 _
      (nextMatch_of_firstAt _ _ _ _ hfirst) (by simpa using exec_dq t ht) (by simp; omega)
      nextMatch_prql_nil
    have hl : (p :: 34 :: (t ++ [34])).length = t.length + 3 := by simp
    rw [hl] at this
    rw [highlight, hl]
    exact this
  refine ⟨rfl, rfl, rfl, h4, ?_, exec_dq t ht, hhl, ?_⟩
  · intro i m hm hsome
    have hi : i < 11 := by
      have := (List.getElem?_eq_some.mp hm).1
      rw [prql_modes] at this
      simpa using this
    rw [prql_modes] at hm
    interval_cases i <;> simp at hm <;> subst hm <;> first
      | rfl
      | (simp only [h0, h1, h2, h3, h5, h6, h7, h8, h9, h10] at hsome; simp at hsome)
  · intro x hx
    rw [hhl] at hx
    simp at hx
    subst hx
    simp

theorem interpolation_tags_whole_fragment_witness :
    34 ∉ units "text" ∧
      highlight prql (units "s\"text\"") = [⟨0, 7, "attribute"⟩] ∧
      highlight prql (units "f\"text\"") = [⟨0, 7, "attribute"⟩] :=
  ⟨by decide,
    (interpolation_tags_whole_fragment 115 (units "text") (Or.inl rfl) (by decide)).2.2.2.2.2.2.1,
    (interpolation_tags_whole_fragment 102 (units "text") (Or.inr rfl) (by decide)).2.2.2.2.2.2.1⟩

/-- C10, as amended: the date pattern matches the one-character text `@`, and
for every text and every offset at which an `@` stands it matches starting
there over at least the `@`, with no rule listed before the date rule beginning
there; in the output for the text, every `@` that does not lie inside a span
beginning at an earlier offset begins a span of class string, the match of the
date rule. -/
theorem at_sign_begins_string_span (s : List Nat) (i : Nat) (h : s[i]? = some 64) :
    dateRe.matchAt [64] = some 1 ∧
      ∃ n, 1 ≤ n ∧ dateRe.matchAt (s.drop i) = some n ∧
        firstAt prql.modes (s.drop i) = some (n, ⟨"string", dateRe, .empty⟩) ∧
        ((∃ x ∈ highlight prql s, x.start < i ∧ i < x.start + x.len) ∨
          (⟨i, n, "string"⟩ : Span) ∈ highlight prql s) := by
  refine ⟨by decide, ?_⟩
  have hi : i < s.length := (List.getElem?_eq_some.mp h).1
  have hget : s[i] = 64 := (List.getElem?_eq_some.mp h).2
  have hdrop : s.drop i = 64 :: s.drop (i + 1) := by
    rw [List.drop_eq_getElem_cons hi, hget]
  obtain ⟨n, hn, hmatch, hfirst⟩ := firstAt_at_sign (s.drop (i + 1))
  rw [← hdrop] at hmatch hfirst
  refine ⟨n, hn, hmatch, hfirst, ?_⟩
  have := scan_at_sign n (s.length + 1) 0 s i (Nat.lt_succ_self _) hi hfirst
  simpa [highlight] using this

theorem at_sign_begins_string_span_witness :
    (units "a @")[2]? = some 64 ∧
      highlight prql (units "a @") = [⟨2, 1, "string"⟩] ∧
      ∃ n, 1 ≤ n ∧ dateRe.matchAt ((units "a @").drop 2) = some n ∧
        firstAt prql.modes ((units "a @").drop 2) = some (n, ⟨"string", dateRe, .empty⟩) ∧
        ((∃ x ∈ highlight prql (units "a @"), x.start < 2 ∧ 2 < x.start + x.len) ∨
          (⟨2, n, "string"⟩ : Span) ∈ highlight prql (units "a @")) :=
  ⟨by decide, by decide, (at_sign_begins_string_span (units "a @") 2 (by decide)).2⟩

/-- C10, as stated, fails: in `s"@"` an `@` stands at offset 2 and the date
pattern matches there, yet the one span of the output is the interpolation
string of class attribute, and no span of class string covers offset 2. -/
theorem at_sign_inside_interpolation :
    (units "s\"@\"")[2]? = some 64 ∧
      dateRe.matchAt ((units "s\"@\"").drop 2) = some 1 ∧
      highlight prql (units "s\"@\"") = [⟨0, 4, "attribute"⟩] ∧
      ¬ ∃ x ∈ highlight prql (units "s\"@\""),
        x.scope = "string" ∧ x.start ≤ 2 ∧ 2 < x.start + x.len := by
  decide

/-- C1, on the code: in `1.5` the pattern of the number rule does not match at
offset 0; its leftmost match is `.5` at offset 1, and that is the only span of
the output, so the `1` stays unstyled. -/
theorem number_rule_on_decimal :
    numberRe.matchAt (units "1.5") = none ∧
      numberRe.exec (units "1.5") = some (1, 2) ∧
      highlight prql (units "1.5") = [⟨1, 2, "number"⟩] := by
  decide

/-- C2, on the code: in `1..5` the range pattern and the number pattern both have
their leftmost match at offset 1, the number pattern over `..5`; the number rule
is listed first, so the output is the one span `..5` of class number and no span
has class symbol. -/
theorem number_rule_takes_range :
    rangeRe.exec (units "1..5") = some (1, 2) ∧
      numberRe.exec (units "1..5") = some (1, 3) ∧
      (nextMatch prql.modes (units "1..5")).map (fun r => (r.1, r.2.1, r.2.2.scope)) =
        some (1, 3, "number") ∧
      highlight prql (units "1..5") = [⟨1, 3, "number"⟩] := by
  decide

end Prql
